import Mathlib

/-!
Verification of the video-to-audio batch converter.

This file gives a shallow embedding of the core of the repository
(single-file version `video_to_audio_converter.py` together with the
package variant under `video_to_audio/`) and proves or refutes the
frozen specification claims about it.

Modelling conventions:
* Timestamps, probabilities and durations (Python floats holding small
  decimal values, used only through arithmetic comparison) are modelled
  as exact rationals.
* Python strings are modelled as lists of characters, and `str.strip`,
  `str.split` and `str.join` are re-implemented structurally on them.
* External processes (the media engine, the classifier) are opaque: the
  pipeline model takes an oracle that says whether a given stage
  invocation on given input/output paths succeeds, and the converter
  records the trace of invocations it performs.
* Filesystem paths are records of a directory and a file name; the
  `pathlib` operations used by the source (`parent`, `stem`) act on it.
-/

namespace VTA

/-! ### Voice frames and the segment merge algorithm
Embedding of `merge_frames_to_segments`
(`video_to_audio_converter.py`, lines 348-417).  A frame is
(timestamp seconds, probability, is_voice).  The source fixes
min speech = 0.25 s, min silence = 0.25 s, pad = 1 s; the embedding
takes those three numbers as parameters and instantiates the fixed
values in `merge_frames_to_segments`. -/

abbrev Frame : Type := ℚ × ℚ × Bool

abbrev Seg : Type := ℚ × ℚ

/-- Python `frame_results[-1][0] if frame_results else 0`. -/
def lastTimestamp (frames : List Frame) : ℚ :=
  match frames.getLast? with
  | some f => f.1
  | none => 0

/-- Step 1 state machine of `merge_frames_to_segments`: scan the frames,
open a region at a voice frame when none is open, close it at the next
non-voice frame.  Returns the closed regions and the still-open start. -/
def voiceRegionsAux : Option ℚ → List Frame → List Seg × Option ℚ
  | cur, [] => ([], cur)
  | cur, (t, _, v) :: rest =>
    match cur with
    | none => if v then voiceRegionsAux (some t) rest else voiceRegionsAux none rest
    | some s =>
      if v then voiceRegionsAux (some s) rest
      else
        let r := voiceRegionsAux none rest
        ((s, t) :: r.1, r.2)

/-- Step 1 of `merge_frames_to_segments`, including the trailing close at
the timestamp of the last frame (`frame_results[-1][0]`). -/
def extractSegments (frames : List Frame) : List Seg :=
  match voiceRegionsAux none frames with
  | (segs, none) => segs
  | (segs, some s) => segs ++ [(s, lastTimestamp frames)]

/-- Step 2: drop candidate segments shorter than the minimum speech
duration (`(end - start) >= min_duration_sec`). -/
def filterShort (minDur : ℚ) (segs : List Seg) : List Seg :=
  segs.filter (fun p => minDur ≤ p.2 - p.1)

/-- Step 3 loop body: `merged[-1] = (merged[-1][0], end)` when
`start - merged[-1][1] <= max_silence_sec`, else append. -/
def mergeCloseAux (maxSil : ℚ) (cs ce : ℚ) : List Seg → List Seg
  | [] => [(cs, ce)]
  | (s, e) :: rest =>
    if s - ce ≤ maxSil then mergeCloseAux maxSil cs e rest
    else (cs, ce) :: mergeCloseAux maxSil s e rest

/-- Step 3: merge segments separated by a gap at most the minimum
silence duration. -/
def mergeClose (maxSil : ℚ) : List Seg → List Seg
  | [] => []
  | (s, e) :: rest => mergeCloseAux maxSil s e rest

/-- Step 4: `(max(0, start - pad_sec), min(end + pad_sec, total_duration))`. -/
def padSegments (pad total : ℚ) (segs : List Seg) : List Seg :=
  segs.map (fun p => (max 0 (p.1 - pad), min (p.2 + pad) total))

/-- Step 5 loop body: `merged[-1] = (merged[-1][0], max(end, merged[-1][1]))`
when `start <= merged[-1][1]`, else append. -/
def mergeOverlapAux (cs ce : ℚ) : List Seg → List Seg
  | [] => [(cs, ce)]
  | (s, e) :: rest =>
    if s ≤ ce then mergeOverlapAux cs (max e ce) rest
    else (cs, ce) :: mergeOverlapAux s e rest

/-- Step 5: merge overlapping segments created by padding. -/
def mergeOverlap : List Seg → List Seg
  | [] => []
  | (s, e) :: rest => mergeOverlapAux s e rest

/-- `merge_frames_to_segments`, parametrised by the three duration
constants.  Empty input returns the empty list at once. -/
def mergeFrames (minDur maxSil pad : ℚ) (frames : List Frame) : List Seg :=
  if frames.isEmpty then []
  else
    mergeOverlap (padSegments pad (lastTimestamp frames)
      (mergeClose maxSil (filterShort minDur (extractSegments frames))))

/-- `merge_frames_to_segments` with the constants of the source:
`TEN_VAD_MIN_SPEECH_DURATION_MS = 250`,
`TEN_VAD_MIN_SILENCE_DURATION_MS = 250`, `TEN_VAD_SPEECH_PAD_MS = 1000`,
each divided by 1000 to seconds. -/
def merge_frames_to_segments (frames : List Frame) : List Seg :=
  mergeFrames (1 / 4) (1 / 4) 1 frames

/-- End of the last segment of a list (0 when empty). -/
def segsLastEnd (l : List Seg) : ℚ :=
  match l.getLast? with
  | some p => p.2
  | none => 0

/-- The VoiceFrame invariant of the spec: timestamps strictly increase. -/
def TimesInc (frames : List Frame) : Prop :=
  frames.Chain' (fun a b => a.1 < b.1)

/-- Probabilities lie in the unit interval. -/
def ProbsValid (frames : List Frame) : Prop :=
  ∀ f ∈ frames, 0 ≤ f.2.1 ∧ f.2.1 ≤ 1

/-- Turn a segment list back into frames that are voice exactly over the
intervals: a voice frame at each start, a non-voice frame at each end. -/
def framesOf : List Seg → List Frame
  | [] => []
  | p :: rest => (p.1, 1, true) :: (p.2, 0, false) :: framesOf rest

/-- Well-formed strictly separated segments: each segment starts no later
than it ends, and it ends strictly before the next one starts. -/
def SegLt (a b : Seg) : Prop := a.1 ≤ a.2 ∧ a.2 < b.1

/-- Boundary between two adjacent post-filter segments that survives both
the silence merge (gap above the threshold) and the overlap merge after
padding (padded gap still positive).  Used to count final segments. -/
def boundaryKeep (t p T : ℚ) (a b : Seg) : Bool :=
  decide (t < b.1 - a.2) && decide (min (a.2 + p) T < max 0 (b.1 - p))

/-- Number of boundaries of adjacent pairs kept by `boundaryKeep`. -/
def countBoundaries (t p T : ℚ) : List Seg → ℕ
  | a :: b :: rest =>
    (if boundaryKeep t p T a b then 1 else 0) + countBoundaries t p T (b :: rest)
  | _ => 0

/-! ### Engine adapter result classification
Embedding of `run_ffmpeg_command` (`video_to_audio_converter.py`
lines 652-688 and `video_to_audio/converter.py` lines 139-175).
Python strings are lists of characters; `strip`, `split('\n')`,
`join` are re-implemented below. -/

/-- Characters removed by Python `str.strip()`. -/
def pySpace (c : Char) : Bool :=
  c == ' ' || c == '\t' || c == '\n' || c == '\r' || c == '\x0B' || c == '\x0C'

/-- Python `str.strip()`. -/
def pyStrip (l : List Char) : List Char :=
  ((l.dropWhile pySpace).reverse.dropWhile pySpace).reverse

/-- Python `str.split('\n')` (keeps empty parts, never returns `[]`). -/
def splitOnNL : List Char → List (List Char)
  | [] => [[]]
  | c :: rest =>
    if c = '\n' then [] :: splitOnNL rest
    else
      match splitOnNL rest with
      | [] => [[c]]
      | h :: t => (c :: h) :: t

/-- Python `'\n'.join(...)`. -/
def joinNL (ls : List (List Char)) : List Char :=
  List.intercalate ['\n'] ls

/-- Python `lines[-n:]` for a list of lines. -/
def lastLines (n : ℕ) (ls : List (List Char)) : List (List Char) :=
  ls.drop (ls.length - n)

/-- `run_ffmpeg_command` result classification: zero exit code is success
with empty text; otherwise strip the captured stderr, split into lines
and keep the last 5 lines when there are more than 5, else the stripped
text. -/
def run_ffmpeg_command (returncode : ℤ) (stderr : List Char) : Bool × List Char :=
  if returncode = 0 then (true, [])
  else
    let errorMsg := pyStrip stderr
    let errorLines := splitOnNL errorMsg
    let relevantError :=
      if errorLines.length > 5 then joinNL (lastLines 5 errorLines) else errorMsg
    (false, relevantError)

/-- Diagnostic text exactly as the claim words it, on the raw captured
stderr: the last 5 lines when the text has more than 5 lines, else the
full text.  (No stripping.) -/
def claimDiagnostic (stderr : List Char) : List Char :=
  let ls := splitOnNL stderr
  if ls.length > 5 then joinNL (lastLines 5 ls) else stderr

/-- The claim rule applied to the stripped stderr, the amended reading. -/
def strippedDiagnostic (stderr : List Char) : List Char :=
  claimDiagnostic (pyStrip stderr)

/-! ### Paths
Embedding of `get_output_path` / `get_temp_path`
(`video_to_audio_converter.py` lines 104-139).  A path is a directory
part plus a file name; `Path.stem` follows the `pathlib` rule: cut at
the last dot when that dot is neither the first nor the last character
of the name. -/

/-- `pathlib` `Path(...).stem` on a file name. -/
def pathStem (name : List Char) : List Char :=
  match name.reverse.findIdx? (fun c => c == '.') with
  | none => name
  | some j =>
    let i := name.length - 1 - j
    if 0 < i ∧ i < name.length - 1 then name.take i else name

/-- A filesystem path: directory part and file name. -/
structure SPath where
  dir : List Char
  name : List Char
deriving DecidableEq

/-- `get_output_path`: same directory, stem plus `_audio.m4a`. -/
def get_output_path (input : SPath) : SPath :=
  ⟨input.dir, pathStem input.name ++ ("_audio.m4a".data)⟩

/-- The `.temp1.m4a` sibling of a base path. -/
def tempPath1 (base : SPath) : SPath :=
  ⟨base.dir, pathStem base.name ++ (".temp1.m4a".data)⟩

/-- The `.temp2.m4a` sibling of a base path. -/
def tempPath2 (base : SPath) : SPath :=
  ⟨base.dir, pathStem base.name ++ (".temp2.m4a".data)⟩

/-- `get_temp_path`: temp number 1 and 2 give the two temp siblings,
any other number raises `ValueError`, modelled as `none`. -/
def get_temp_path (basePath : SPath) (tempNumber : ℤ) : Option SPath :=
  if tempNumber = 1 then some (tempPath1 basePath)
  else if tempNumber = 2 then some (tempPath2 basePath)
  else none

/-! ### Pipeline orchestration
Embedding of `convert_video_to_audio` (`video_to_audio_converter.py`
lines 706-851) and `process_files` (lines 970-1011).  Stage execution
is abstracted by an oracle deciding whether an invocation of a stage on
given input and output paths succeeds; the converter returns its result
pair together with the ordered trace of invocations it performed. -/

/-- One pipeline stage. -/
inductive Stage where
  | extract
  | silenceRemove
  | mlSegment
  | normalize
deriving DecidableEq

/-- One recorded stage invocation: stage, input path, output path. -/
abbrev Invocation : Type := Stage × SPath × SPath

/-- Success oracle for stage invocations. -/
abbrev Oracle : Type := Stage → SPath → SPath → Bool

/-- Preference record: the keys read by `convert_video_to_audio`. -/
structure Prefs where
  remove_silence : Bool
  use_silero_vad : Bool
  normalize_audio : Bool
  audio_track : ℤ

/-- Error text for a failed engine resolution (`get_ffmpeg_path` raise). -/
def engineMissingMsg : List Char := "FFmpeg binary not found".data

/-- Stage label of a failed base conversion. -/
def baseConvFailMsg : List Char := "Base conversion failed".data

/-- Stage label of a failed silence removal. -/
def silenceFailMsg : List Char := "Silence removal failed".data

/-- Stage label of a failed normalization. -/
def normalizeFailMsg : List Char := "Normalization failed".data

/-- Stage label of a failed plain conversion. -/
def convertFailMsg : List Char := "Conversion failed".data

/-- `convert_video_to_audio`: the engine is resolved first (failure is
caught and fails the job); then the pipeline branches exactly as the
source does on `remove_silence` and `normalize_audio`, with the
`use_silero_vad` sub-branch running the ML segmenter and falling back to
the built-in silence removal on the same input and target when the
segmenter fails.  Returns ((success, error text), invocation trace). -/
def convert_video_to_audio (inputPath : SPath) (prefs : Prefs) (engineOk : Bool)
    (oracle : Oracle) : (Bool × List Char) × List Invocation :=
  if engineOk = false then ((false, engineMissingMsg), [])
  else
    let outputPath := get_output_path inputPath
    if prefs.remove_silence && prefs.normalize_audio then
      let t1 := tempPath1 outputPath
      let t2 := tempPath2 outputPath
      if oracle .extract inputPath t1 = false then
        ((false, baseConvFailMsg), [(.extract, inputPath, t1)])
      else if prefs.use_silero_vad then
        if oracle .mlSegment t1 t2 then
          if oracle .normalize t2 outputPath = false then
            ((false, normalizeFailMsg),
              [(.extract, inputPath, t1), (.mlSegment, t1, t2), (.normalize, t2, outputPath)])
          else
            ((true, []),
              [(.extract, inputPath, t1), (.mlSegment, t1, t2), (.normalize, t2, outputPath)])
        else
          if oracle .silenceRemove t1 t2 = false then
            ((false, silenceFailMsg),
              [(.extract, inputPath, t1), (.mlSegment, t1, t2), (.silenceRemove, t1, t2)])
          else if oracle .normalize t2 outputPath = false then
            ((false, normalizeFailMsg),
              [(.extract, inputPath, t1), (.mlSegment, t1, t2), (.silenceRemove, t1, t2),
                (.normalize, t2, outputPath)])
          else
            ((true, []),
              [(.extract, inputPath, t1), (.mlSegment, t1, t2), (.silenceRemove, t1, t2),
                (.normalize, t2, outputPath)])
      else
        if oracle .silenceRemove t1 t2 = false then
          ((false, silenceFailMsg),
            [(.extract, inputPath, t1), (.silenceRemove, t1, t2)])
        else if oracle .normalize t2 outputPath = false then
          ((false, normalizeFailMsg),
            [(.extract, inputPath, t1), (.silenceRemove, t1, t2), (.normalize, t2, outputPath)])
        else
          ((true, []),
            [(.extract, inputPath, t1), (.silenceRemove, t1, t2), (.normalize, t2, outputPath)])
    else if prefs.remove_silence then
      let t1 := tempPath1 outputPath
      if oracle .extract inputPath t1 = false then
        ((false, baseConvFailMsg), [(.extract, inputPath, t1)])
      else if prefs.use_silero_vad then
        if oracle .mlSegment t1 outputPath then
          ((true, []),
            [(.extract, inputPath, t1), (.mlSegment, t1, outputPath)])
        else
          if oracle .silenceRemove t1 outputPath = false then
            ((false, silenceFailMsg),
              [(.extract, inputPath, t1), (.mlSegment, t1, outputPath),
                (.silenceRemove, t1, outputPath)])
          else
            ((true, []),
              [(.extract, inputPath, t1), (.mlSegment, t1, outputPath),
                (.silenceRemove, t1, outputPath)])
      else
        if oracle .silenceRemove t1 outputPath = false then
          ((false, silenceFailMsg),
            [(.extract, inputPath, t1), (.silenceRemove, t1, outputPath)])
        else
          ((true, []),
            [(.extract, inputPath, t1), (.silenceRemove, t1, outputPath)])
    else if prefs.normalize_audio then
      let t1 := tempPath1 outputPath
      if oracle .extract inputPath t1 = false then
        ((false, baseConvFailMsg), [(.extract, inputPath, t1)])
      else if oracle .normalize t1 outputPath = false then
        ((false, normalizeFailMsg),
          [(.extract, inputPath, t1), (.normalize, t1, outputPath)])
      else
        ((true, []),
          [(.extract, inputPath, t1), (.normalize, t1, outputPath)])
    else
      if oracle .extract inputPath outputPath = false then
        ((false, convertFailMsg), [(.extract, inputPath, outputPath)])
      else
        ((true, []), [(.extract, inputPath, outputPath)])

/-- The oracle under which every stage invocation succeeds. -/
def allOk : Oracle := fun _ _ _ => true

/-- The stage sequence the spec expects for a preference combination:
Extract first, then at most one silence-handling stage (the ML segmenter
when selected, else the built-in removal), then Normalize when enabled;
each stage reads the previous output and the last writes the final path. -/
def expectedTrace (inputPath : SPath) (prefs : Prefs) : List Invocation :=
  let out := get_output_path inputPath
  let t1 := tempPath1 out
  let t2 := tempPath2 out
  let silStage : Stage := if prefs.use_silero_vad then .mlSegment else .silenceRemove
  if prefs.remove_silence && prefs.normalize_audio then
    [(.extract, inputPath, t1), (silStage, t1, t2), (.normalize, t2, out)]
  else if prefs.remove_silence then
    [(.extract, inputPath, t1), (silStage, t1, out)]
  else if prefs.normalize_audio then
    [(.extract, inputPath, t1), (.normalize, t1, out)]
  else
    [(.extract, inputPath, out)]

/-- The stage sequence of a job whose ML segmenter stage fails and falls
back to the built-in silence removal on the same input and target,
with every stage other than the segmenter succeeding. -/
def fallbackTrace (inputPath : SPath) (normalizeOn : Bool) : List Invocation :=
  let out := get_output_path inputPath
  let t1 := tempPath1 out
  let t2 := tempPath2 out
  if normalizeOn then
    [(.extract, inputPath, t1), (.mlSegment, t1, t2), (.silenceRemove, t1, t2),
      (.normalize, t2, out)]
  else
    [(.extract, inputPath, t1), (.mlSegment, t1, out), (.silenceRemove, t1, out)]

/-- Every invocation after the first reads the output of the previous one. -/
def stagesChained (tr : List Invocation) : Prop :=
  tr.Chain' (fun a b => a.2.2 = b.2.1)

/-- Number of silence-handling invocations in a trace. -/
def silenceStageCount (tr : List Invocation) : ℕ :=
  tr.countP (fun inv => inv.1 == Stage.silenceRemove || inv.1 == Stage.mlSegment)

/-- `process_files`: convert each file in order, collect an error entry
for every failed job, continue after failures; also return the
concatenated invocation trace of the whole batch. -/
def process_files (files : List SPath) (prefs : Prefs) (engineOk : Bool)
    (oracle : Oracle) : List (SPath × List Char) × List Invocation :=
  match files with
  | [] => ([], [])
  | f :: rest =>
    let r := convert_video_to_audio f prefs engineOk oracle
    let r2 := process_files rest prefs engineOk oracle
    ((if r.1.1 then r2.1 else (f, r.1.2) :: r2.1), r.2 ++ r2.2)

/-! ### Speech detection temp-file lifecycle
Embedding of `detect_speech_segments_ten_vad`
(`video_to_audio_converter.py` lines 456-558).  The function downsamples
to a private 16 kHz wav temp file, decodes it, checks the sample rate
and dtype, scores frames with the classifier, merges them, and unlinks
the temp file just before returning (the unlink sits on the success path
only, wrapped in a try/except that swallows deletion errors).  The
environment records which external step succeeds and what frames the
classifier yields; the result pairs the detection outcome with whether
the temp file still exists afterwards. -/

/-- Outcome environment for one detection run. -/
structure VadEnv where
  downsampleOk : Bool
  decodeOk : Bool
  sampleRateVal : ℕ
  dtypeOk : Bool
  classifierOk : Bool
  frames : List Frame
  unlinkOk : Bool

/-- `detect_speech_segments_ten_vad`: result and whether the downsampled
temp file still exists after the call (when the downsample step fails
the file is treated as never created). -/
def detect_speech_segments_ten_vad (env : VadEnv) :
    Except (List Char) (List Seg) × Bool :=
  if env.downsampleOk = false then
    (.error ("Failed to downsample audio".data), false)
  else if env.decodeOk = false then
    (.error ("failed to read wav".data), true)
  else if env.sampleRateVal ≠ 16000 then
    (.error ("Unexpected sample rate".data), true)
  else if env.dtypeOk = false then
    (.error ("Unexpected audio format".data), true)
  else if env.classifierOk = false then
    (.error ("TEN VAD processing failed".data), true)
  else
    (.ok (merge_frames_to_segments env.frames), !env.unlinkOk)

/-! ### Helper lemmas -/

instance : IsTrans Seg SegLt :=
  ⟨fun _ _ _ hab hbc => ⟨hab.1, (hab.2.trans_le hbc.1).trans hbc.2⟩⟩

theorem chain'_imp_of_mem {α : Type} {R S : α → α → Prop} :
    ∀ {l : List α}, (∀ a ∈ l, ∀ b ∈ l, R a b → S a b) → l.Chain' R → l.Chain' S := by
  intro l
  induction l with
  | nil => intro _ _; exact List.chain'_nil
  | cons x t ih =>
    intro h hc
    cases t with
    | nil => exact List.chain'_singleton x
    | cons y t2 =>
      rw [List.chain'_cons] at hc ⊢
      refine ⟨h x (by simp) y (by simp) hc.1, ih ?_ hc.2⟩
      intro a ha b hb hr
      exact h a (by simp [ha]) b (by simp [hb]) hr

theorem pairwise_of_chain_lt : ∀ {frames : List Frame},
    frames.Chain' (fun a b : Frame => a.1 < b.1) →
    frames.Pairwise (fun a b : Frame => a.1 < b.1) := by
  intro frames
  induction frames with
  | nil => intro _; exact List.Pairwise.nil
  | cons f t ih =>
    intro h
    cases t with
    | nil => simp
    | cons g t2 =>
      rw [List.chain'_cons] at h
      have hp := ih h.2
      rw [List.pairwise_cons]
      refine ⟨?_, hp⟩
      intro b hb
      rcases List.mem_cons.mp hb with rfl | hb2
      · exact h.1
      · exact h.1.trans ((List.pairwise_cons.mp hp).1 b hb2)

theorem lastTimestamp_mem : ∀ {frames : List Frame}, frames ≠ [] →
    ∃ f ∈ frames, lastTimestamp frames = f.1 := by
  intro frames
  induction frames with
  | nil => intro h; exact absurd rfl h
  | cons f t ih =>
    intro _
    cases t with
    | nil => exact ⟨f, by simp, rfl⟩
    | cons g t2 =>
      obtain ⟨f2, hmem, heq⟩ := ih (by simp)
      refine ⟨f2, by simp [List.mem_cons.mp hmem], ?_⟩
      rw [lastTimestamp, List.getLast?_cons_cons]
      exact heq

theorem le_lastTimestamp : ∀ {frames : List Frame},
    frames.Pairwise (fun a b : Frame => a.1 < b.1) →
    ∀ f ∈ frames, f.1 ≤ lastTimestamp frames := by
  intro frames
  induction frames with
  | nil => intro _ f hf; exact absurd hf (by simp)
  | cons g t ih =>
    intro hp f hf
    rw [List.pairwise_cons] at hp
    cases t with
    | nil =>
      rcases List.mem_cons.mp hf with rfl | hf2
      · exact le_of_eq rfl
      · exact absurd hf2 (by simp)
    | cons g2 t2 =>
      have hlast : lastTimestamp (g :: g2 :: t2) = lastTimestamp (g2 :: t2) := by
        rw [lastTimestamp, List.getLast?_cons_cons]; rfl
      rcases List.mem_cons.mp hf with rfl | hf2
      · rw [hlast]
        exact le_of_lt (lt_of_lt_of_le (hp.1 g2 (by simp))
          (ih hp.2 g2 (by simp)))
      · rw [hlast]
        exact ih hp.2 f hf2

theorem voiceRegionsAux_spec :
    ∀ (frames : List Frame) (cur : Option ℚ),
      frames.Pairwise (fun a b : Frame => a.1 < b.1) →
      (∀ s, cur = some s → ∀ f ∈ frames, s < f.1) →
      ((∀ p ∈ (voiceRegionsAux cur frames).1,
          (cur = some p.1 ∨ ∃ f ∈ frames, p.1 = f.1)
          ∧ (∃ f ∈ frames, p.2 = f.1) ∧ p.1 < p.2)
        ∧ (voiceRegionsAux cur frames).1.Chain' SegLt
        ∧ (∀ s2, (voiceRegionsAux cur frames).2 = some s2 →
            (cur = some s2 ∨ ∃ f ∈ frames, s2 = f.1)
            ∧ ∀ p ∈ (voiceRegionsAux cur frames).1, p.2 < s2)) := by
  intro frames
  induction frames with
  | nil =>
    intro cur _ _
    refine ⟨by simp [voiceRegionsAux], by simp [voiceRegionsAux], ?_⟩
    intro s2 h
    exact ⟨Or.inl h, by simp [voiceRegionsAux]⟩
  | cons hd rest ih =>
    obtain ⟨t, pr, v⟩ := hd
    intro cur hp hcur
    rw [List.pairwise_cons] at hp
    have hhd : ∀ b ∈ rest, t < b.1 := hp.1
    cases cur with
    | none =>
      cases v with
      | true =>
        have heq : voiceRegionsAux none ((t, pr, true) :: rest)
            = voiceRegionsAux (some t) rest := by simp [voiceRegionsAux]
        rw [heq]
        have hcur2 : ∀ s, (some t : Option ℚ) = some s → ∀ f ∈ rest, s < f.1 := by
          intro s hs f hf
          cases hs
          exact hhd f hf
        obtain ⟨ih1, ih2, ih3⟩ := ih (some t) hp.2 hcur2
        refine ⟨?_, ih2, ?_⟩
        · intro p hmem
          obtain ⟨ha, hb, hc⟩ := ih1 p hmem
          refine ⟨Or.inr ?_, ⟨hb.choose, by simp [hb.choose_spec.1], hb.choose_spec.2⟩, hc⟩
          rcases ha with ha | ⟨f, hf, hfe⟩
          · exact ⟨(t, pr, true), by simp, (Option.some_inj.mp ha).symm⟩
          · exact ⟨f, by simp [hf], hfe⟩
        · intro s2 hs2
          obtain ⟨ha, hb⟩ := ih3 s2 hs2
          refine ⟨Or.inr ?_, hb⟩
          rcases ha with ha | ⟨f, hf, hfe⟩
          · exact ⟨(t, pr, true), by simp, (Option.some_inj.mp ha).symm⟩
          · exact ⟨f, by simp [hf], hfe⟩
      | false =>
        have heq : voiceRegionsAux none ((t, pr, false) :: rest)
            = voiceRegionsAux none rest := by simp [voiceRegionsAux]
        rw [heq]
        obtain ⟨ih1, ih2, ih3⟩ := ih none hp.2 (by simp)
        refine ⟨?_, ih2, ?_⟩
        · intro p hmem
          obtain ⟨ha, hb, hc⟩ := ih1 p hmem
          refine ⟨?_, ⟨hb.choose, by simp [hb.choose_spec.1], hb.choose_spec.2⟩, hc⟩
          rcases ha with ha | ⟨f, hf, hfe⟩
          · exact absurd ha (by simp)
          · exact Or.inr ⟨f, by simp [hf], hfe⟩
        · intro s2 hs2
          obtain ⟨ha, hb⟩ := ih3 s2 hs2
          refine ⟨?_, hb⟩
          rcases ha with ha | ⟨f, hf, hfe⟩
          · exact absurd ha (by simp)
          · exact Or.inr ⟨f, by simp [hf], hfe⟩
    | some s =>
      cases v with
      | true =>
        have heq : voiceRegionsAux (some s) ((t, pr, true) :: rest)
            = voiceRegionsAux (some s) rest := by simp [voiceRegionsAux]
        rw [heq]
        have hcur2 : ∀ s0, (some s : Option ℚ) = some s0 → ∀ f ∈ rest, s0 < f.1 := by
          intro s0 hs0 f hf
          cases hs0
          exact hcur s rfl f (by simp [hf])
        obtain ⟨ih1, ih2, ih3⟩ := ih (some s) hp.2 hcur2
        refine ⟨?_, ih2, ?_⟩
        · intro p hmem
          obtain ⟨ha, hb, hc⟩ := ih1 p hmem
          refine ⟨?_, ⟨hb.choose, by simp [hb.choose_spec.1], hb.choose_spec.2⟩, hc⟩
          rcases ha with ha | ⟨f, hf, hfe⟩
          · exact Or.inl ha
          · exact Or.inr ⟨f, by simp [hf], hfe⟩
        · intro s2 hs2
          obtain ⟨ha, hb⟩ := ih3 s2 hs2
          refine ⟨?_, hb⟩
          rcases ha with ha | ⟨f, hf, hfe⟩
          · exact Or.inl ha
          · exact Or.inr ⟨f, by simp [hf], hfe⟩
      | false =>
        have heq : voiceRegionsAux (some s) ((t, pr, false) :: rest)
            = ((s, t) :: (voiceRegionsAux none rest).1, (voiceRegionsAux none rest).2) := by
          simp [voiceRegionsAux]
        rw [heq]
        obtain ⟨ih1, ih2, ih3⟩ := ih none hp.2 (by simp)
        have hst : s < t := hcur s rfl (t, pr, false) (by simp)
        refine ⟨?_, ?_, ?_⟩
        · intro p hmem
          rcases List.mem_cons.mp hmem with rfl | hmem2
        -- the newly closed segment
          · exact ⟨Or.inl rfl, ⟨(t, pr, false), by simp, rfl⟩, hst⟩
          · obtain ⟨ha, hb, hc⟩ := ih1 p hmem2
            refine ⟨?_, ⟨hb.choose, by simp [hb.choose_spec.1], hb.choose_spec.2⟩, hc⟩
            rcases ha with ha | ⟨f, hf, hfe⟩
            · exact absurd ha (by simp)
            · exact Or.inr ⟨f, by simp [hf], hfe⟩
        · cases hli : (voiceRegionsAux none rest).1 with
          | nil => simp
          | cons q tll =>
            rw [List.chain'_cons]
            constructor
            · refine ⟨le_of_lt hst, ?_⟩
              have hq := ih1 q (by rw [hli]; simp)
              rcases hq.1 with ha | ⟨f, hf, hfe⟩
              · exact absurd ha (by simp)
              · rw [hfe]; exact hhd f hf
            · rw [hli] at ih2; exact ih2
        · intro s2 hs2
          obtain ⟨ha, hb⟩ := ih3 s2 hs2
          refine ⟨?_, ?_⟩
          · rcases ha with ha | ⟨f, hf, hfe⟩
            · exact absurd ha (by simp)
            · exact Or.inr ⟨f, by simp [hf], hfe⟩
          · intro p hmem
            rcases List.mem_cons.mp hmem with rfl | hmem2
            · rcases ha with ha | ⟨f, hf, hfe⟩
              · exact absurd ha (by simp)
              · rw [hfe]; exact hhd f hf
            · exact hb p hmem2

theorem extractSegments_spec {frames : List Frame}
    (hc : frames.Chain' (fun a b : Frame => a.1 < b.1)) :
    (∀ p ∈ extractSegments frames,
      (∃ f ∈ frames, p.1 = f.1) ∧ p.1 ≤ p.2 ∧ p.2 ≤ lastTimestamp frames)
    ∧ (extractSegments frames).Chain' SegLt := by
  have hp := pairwise_of_chain_lt hc
  obtain ⟨h1, h2, h3⟩ := voiceRegionsAux_spec frames none hp (by simp)
  rw [extractSegments]
  rcases hvr : voiceRegionsAux none frames with ⟨segs, fin⟩
  simp only [hvr] at h1 h2 h3
  cases fin with
  | none =>
    constructor
    · intro p hmem
      obtain ⟨ha, hb, hwf⟩ := h1 p hmem
      rcases ha with ha | ha
      · exact absurd ha (by simp)
      · obtain ⟨f, hf, hfe⟩ := hb
        exact ⟨ha, le_of_lt hwf, hfe ▸ le_lastTimestamp hp f hf⟩
    · exact h2
  | some s2 =>
    obtain ⟨hmem0, hlt0⟩ := h3 s2 rfl
    have hs2mem : ∃ f ∈ frames, s2 = f.1 := by
      rcases hmem0 with h | h
      · exact absurd h (by simp)
      · exact h
    constructor
    · intro p hmem
      rcases List.mem_append.mp hmem with hmem | hmem
      · obtain ⟨ha, hb, hwf⟩ := h1 p hmem
        rcases ha with ha | ha
        · exact absurd ha (by simp)
        · obtain ⟨f, hf, hfe⟩ := hb
          exact ⟨ha, le_of_lt hwf, hfe ▸ le_lastTimestamp hp f hf⟩
      · rcases List.mem_singleton.mp hmem with rfl
        obtain ⟨f, hf, hfe⟩ := hs2mem
        exact ⟨⟨f, hf, hfe⟩, hfe ▸ le_lastTimestamp hp f hf, le_of_eq rfl⟩
    · rw [List.chain'_append]
      refine ⟨h2, List.chain'_singleton _, ?_⟩
      intro x hx y hy
      have hxmem : x ∈ segs := List.mem_of_mem_getLast? hx
      have hy2 : y = (s2, lastTimestamp frames) := by
        simp only [List.head?_cons, Option.mem_def, Option.some_inj] at hy
        exact hy.symm
      rw [hy2]
      exact ⟨le_of_lt (h1 x hxmem).2.2, hlt0 x hxmem⟩

theorem filterShort_spec {d : ℚ} {l : List Seg} (hchain : l.Chain' SegLt) :
    (filterShort d l).Chain' SegLt
    ∧ (∀ p ∈ filterShort d l, p ∈ l)
    ∧ (∀ p ∈ filterShort d l, d ≤ p.2 - p.1) := by
  refine ⟨List.Chain'.sublist hchain (List.filter_sublist l),
    fun p hp => List.mem_of_mem_filter hp, ?_⟩
  intro p hp
  exact of_decide_eq_true (List.mem_filter.mp hp).2

theorem chain'_replace_head {x y : Seg} {l : List Seg}
    (h : List.Chain' SegLt (x :: l)) (hy1 : y.1 ≤ y.2) (hy2 : y.2 = x.2) :
    List.Chain' SegLt (y :: l) := by
  cases l with
  | nil => exact List.chain'_singleton y
  | cons q t =>
    rw [List.chain'_cons] at h ⊢
    exact ⟨⟨hy1, hy2 ▸ h.1.2⟩, h.2⟩

theorem mergeCloseAux_head : ∀ (l : List Seg) (t cs ce : ℚ),
    List.Chain' SegLt ((cs, ce) :: l) →
    (∀ p ∈ l, p.1 ≤ p.2) →
    ∃ e2 tl, mergeCloseAux t cs ce l = (cs, e2) :: tl ∧ ce ≤ e2 := by
  intro l
  induction l with
  | nil => exact fun t cs ce _ _ => ⟨ce, [], rfl, le_refl ce⟩
  | cons q rest ih =>
    obtain ⟨s, e⟩ := q
    intro t cs ce hch hwf
    rw [List.chain'_cons] at hch
    have hce_s : ce < s := hch.1.2
    have hse : s ≤ e := hwf (s, e) (by simp)
    by_cases hg : s - ce ≤ t
    · have hch2 : List.Chain' SegLt ((cs, e) :: rest) := by
        refine chain'_replace_head hch.2 ?_ rfl
        exact le_of_lt (lt_of_le_of_lt hch.1.1 (lt_of_lt_of_le hce_s hse))
      obtain ⟨e2, tl, heq, hle⟩ := ih t cs e hch2 (fun p hp => hwf p (by simp [hp]))
      refine ⟨e2, tl, ?_, ?_⟩
      · rw [mergeCloseAux, if_pos hg]; exact heq
      · exact le_of_lt (lt_of_lt_of_le hce_s (le_trans hse hle))
    · exact ⟨ce, mergeCloseAux t s e rest, by rw [mergeCloseAux, if_neg hg], le_refl ce⟩

theorem mergeCloseAux_spec : ∀ (l : List Seg) (t cs ce d T : ℚ),
    List.Chain' SegLt ((cs, ce) :: l) →
    (∀ p ∈ l, p.1 ≤ p.2) →
    cs ≤ ce → d ≤ ce - cs → 0 ≤ cs → ce ≤ T →
    (∀ p ∈ l, d ≤ p.2 - p.1) →
    (∀ p ∈ l, 0 ≤ p.1 ∧ p.2 ≤ T) →
    ((mergeCloseAux t cs ce l).Chain' (fun a b => t < b.1 - a.2)
      ∧ ∀ p ∈ mergeCloseAux t cs ce l,
          p.1 ≤ p.2 ∧ d ≤ p.2 - p.1 ∧ 0 ≤ p.1 ∧ p.2 ≤ T) := by
  intro l
  induction l with
  | nil =>
    intro t cs ce d T _ _ hcs hd hb1 hb2 _ _
    constructor
    · exact List.chain'_singleton _
    · intro p hp
      rcases List.mem_singleton.mp hp with rfl
      exact ⟨hcs, hd, hb1, hb2⟩
  | cons q rest ih =>
    obtain ⟨s, e⟩ := q
    intro t cs ce d T hch hwf hcs hd hb1 hb2 hdl hbl
    rw [List.chain'_cons] at hch
    have hce_s : ce < s := hch.1.2
    have hse : s ≤ e := hwf (s, e) (by simp)
    have hcse : cs ≤ e := le_of_lt (lt_of_le_of_lt hcs (lt_of_lt_of_le hce_s hse))
    by_cases hg : s - ce ≤ t
    · rw [mergeCloseAux, if_pos hg]
      refine ih t cs e d T (chain'_replace_head hch.2 hcse rfl)
        (fun p hp => hwf p (by simp [hp])) hcse ?_ hb1
        (hbl (s, e) (by simp)).2
        (fun p hp => hdl p (by simp [hp]))
        (fun p hp => hbl p (by simp [hp]))
      have : ce < e := lt_of_lt_of_le hce_s hse
      linarith
    · rw [mergeCloseAux, if_neg hg]
      obtain ⟨hch2, hprops⟩ := ih t s e d T hch.2 (fun p hp => hwf p (by simp [hp]))
        hse (hdl (s, e) (by simp)) (hbl (s, e) (by simp)).1 (hbl (s, e) (by simp)).2
        (fun p hp => hdl p (by simp [hp]))
        (fun p hp => hbl p (by simp [hp]))
      obtain ⟨e2, tl, heq, _⟩ := mergeCloseAux_head rest t s e hch.2
        (fun p hp => hwf p (by simp [hp]))
      constructor
      · rw [heq]
        rw [heq] at hch2
        rw [List.chain'_cons]
        refine ⟨?_, hch2⟩
        simp only
        linarith [not_le.mp hg]
      · intro p hp
        rcases List.mem_cons.mp hp with rfl | hp2
        · exact ⟨hcs, hd, hb1, hb2⟩
        · exact hprops p hp2

theorem mergeClose_spec {t d T : ℚ} {l : List Seg}
    (hch : l.Chain' SegLt)
    (hwf : ∀ p ∈ l, p.1 ≤ p.2)
    (hd : ∀ p ∈ l, d ≤ p.2 - p.1)
    (hb : ∀ p ∈ l, 0 ≤ p.1 ∧ p.2 ≤ T) :
    (mergeClose t l).Chain' (fun a b => t < b.1 - a.2)
    ∧ ∀ p ∈ mergeClose t l, p.1 ≤ p.2 ∧ d ≤ p.2 - p.1 ∧ 0 ≤ p.1 ∧ p.2 ≤ T := by
  cases l with
  | nil => simp [mergeClose]
  | cons q tl =>
    obtain ⟨a, b⟩ := q
    rw [mergeClose]
    exact mergeCloseAux_spec tl t a b d T hch (fun p hp => hwf p (by simp [hp]))
      (hwf (a, b) (by simp)) (hd (a, b) (by simp)) (hb (a, b) (by simp)).1
      (hb (a, b) (by simp)).2 (fun p hp => hd p (by simp [hp]))
      (fun p hp => hb p (by simp [hp]))

theorem padSegments_spec (pad : ℚ) {T d : ℚ} {l : List Seg} (hpad : 0 ≤ pad)
    (hch : l.Chain' (fun a b : Seg => a.2 < b.1))
    (hprops : ∀ p ∈ l, p.1 ≤ p.2 ∧ d ≤ p.2 - p.1 ∧ 0 ≤ p.1 ∧ p.2 ≤ T) :
    (padSegments pad T l).Chain' (fun a b => a.1 ≤ b.1 ∧ a.2 ≤ b.2)
    ∧ ∀ q ∈ padSegments pad T l, q.1 ≤ q.2 ∧ d ≤ q.2 - q.1 ∧ 0 ≤ q.1 ∧ q.2 ≤ T := by
  constructor
  · rw [padSegments, List.chain'_map]
    refine chain'_imp_of_mem ?_ hch
    intro a ha b hb hr
    obtain ⟨hawf, _, _, _⟩ := hprops a ha
    obtain ⟨hbwf, _, _, _⟩ := hprops b hb
    constructor
    · exact max_le_max (le_refl 0) (sub_le_sub_right (le_of_lt (lt_of_le_of_lt hawf hr)) pad)
    · exact min_le_min (add_le_add_right (le_of_lt (lt_of_lt_of_le hr hbwf)) pad) (le_refl T)
  · intro q hq
    rw [padSegments] at hq
    obtain ⟨p, hp, rfl⟩ := List.mem_map.mp hq
    obtain ⟨hwf, hdp, hb1, hb2⟩ := hprops p hp
    have g1 : max 0 (p.1 - pad) ≤ p.1 := max_le hb1 (by linarith)
    have g2 : p.2 ≤ min (p.2 + pad) T := le_min (by linarith) hb2
    refine ⟨le_trans g1 (le_trans hwf g2), by simp only; linarith, le_max_left 0 _,
      min_le_right _ T⟩

theorem mergeOverlapAux_head : ∀ (l : List Seg) (s e : ℚ),
    ∃ e2 tl, mergeOverlapAux s e l = (s, e2) :: tl := by
  intro l
  induction l with
  | nil => exact fun s e => ⟨e, [], rfl⟩
  | cons r0 t2 ih =>
    obtain ⟨s0, e0⟩ := r0
    intro s e
    by_cases h0 : s0 ≤ e
    · rw [mergeOverlapAux, if_pos h0]
      exact ih s (max e0 e)
    · exact ⟨e, _, by rw [mergeOverlapAux, if_neg h0]⟩

theorem mergeOverlapAux_spec : ∀ (l : List Seg) (cs ce d T : ℚ),
    List.Chain' (fun a b : Seg => a.1 ≤ b.1 ∧ a.2 ≤ b.2) ((cs, ce) :: l) →
    cs ≤ ce → d ≤ ce - cs → 0 ≤ cs → ce ≤ T →
    (∀ p ∈ l, p.1 ≤ p.2 ∧ d ≤ p.2 - p.1 ∧ 0 ≤ p.1 ∧ p.2 ≤ T) →
    ((mergeOverlapAux cs ce l).Chain' (fun a b => a.2 < b.1)
      ∧ ∀ p ∈ mergeOverlapAux cs ce l,
          p.1 ≤ p.2 ∧ d ≤ p.2 - p.1 ∧ 0 ≤ p.1 ∧ p.2 ≤ T) := by
  intro l
  induction l with
  | nil =>
    intro cs ce d T _ hcs hd hb1 hb2 _
    constructor
    · exact List.chain'_singleton _
    · intro p hp
      rcases List.mem_singleton.mp hp with rfl
      exact ⟨hcs, hd, hb1, hb2⟩
  | cons q rest ih =>
    obtain ⟨s, e⟩ := q
    intro cs ce d T hch hcs hd hb1 hb2 hprops
    rw [List.chain'_cons] at hch
    have hcss : cs ≤ s := hch.1.1
    have hcee : ce ≤ e := hch.1.2
    obtain ⟨hse, hde, hs0, heT⟩ := hprops (s, e) (by simp)
    by_cases hov : s ≤ ce
    · rw [mergeOverlapAux, if_pos hov]
      rw [max_eq_left hcee]
      have hch2 : List.Chain' (fun a b : Seg => a.1 ≤ b.1 ∧ a.2 ≤ b.2) ((cs, e) :: rest) := by
        cases rest with
        | nil => exact List.chain'_singleton _
        | cons r0 t2 =>
          rw [List.chain'_cons] at hch ⊢
          exact ⟨⟨le_trans hcss hch.2.1.1, hch.2.1.2⟩, hch.2.2⟩
      refine ih cs e d T hch2 (le_trans hcs hcee) (by linarith) hb1 heT
        (fun p hp => hprops p (by simp [hp]))
    · rw [mergeOverlapAux, if_neg hov]
      obtain ⟨hch2, hprops2⟩ := ih s e d T hch.2 hse hde hs0 heT
        (fun p hp => hprops p (by simp [hp]))
      constructor
      · cases hres : mergeOverlapAux s e rest with
        | nil => exact List.chain'_singleton _
        | cons q2 tl2 =>
          rw [List.chain'_cons]
          constructor
          · obtain ⟨e2, tl, heq⟩ := mergeOverlapAux_head rest s e
            rw [heq] at hres
            have hq2 : q2 = (s, e2) := by
              have h5 := hres.symm
              rw [List.cons.injEq] at h5
              exact h5.1
            rw [hq2]
            exact not_le.mp hov
          · rw [hres] at hch2
            exact hch2
      · intro p hp
        rcases List.mem_cons.mp hp with rfl | hp2
        · exact ⟨hcs, hd, hb1, hb2⟩
        · exact hprops2 p hp2

theorem mergeOverlap_spec {d T : ℚ} {l : List Seg}
    (hch : l.Chain' (fun a b : Seg => a.1 ≤ b.1 ∧ a.2 ≤ b.2))
    (hprops : ∀ p ∈ l, p.1 ≤ p.2 ∧ d ≤ p.2 - p.1 ∧ 0 ≤ p.1 ∧ p.2 ≤ T) :
    (mergeOverlap l).Chain' (fun a b => a.2 < b.1)
    ∧ ∀ p ∈ mergeOverlap l, p.1 ≤ p.2 ∧ d ≤ p.2 - p.1 ∧ 0 ≤ p.1 ∧ p.2 ≤ T := by
  cases l with
  | nil => simp [mergeOverlap]
  | cons q tl =>
    obtain ⟨a, b⟩ := q
    rw [mergeOverlap]
    obtain ⟨h1, h2, h3, h4⟩ := hprops (a, b) (by simp)
    exact mergeOverlapAux_spec tl a b d T hch h1 h2 h3 h4
      (fun p hp => hprops p (by simp [hp]))

/-! ### Claim C1: merge output invariants -/

/-- C1 amended: for frames with strictly increasing nonnegative
timestamps and probabilities in the unit interval, the merge output is
sorted ascending by start, pairwise non-overlapping with strictly
positive gaps, every segment lasts at least the minimum speech duration,
and every segment lies inside 0 and the total duration.  The original
claim asks in addition that consecutive gaps are at least the minimum
silence duration; padding can shrink a surviving gap below it, which the
counterexample shows, so that clause is weakened to positive gaps; the
nonnegativity of timestamps is required because the clamp of padding to
0 can otherwise shorten a segment below the minimum speech duration. -/
theorem claim_C1_segment_invariants (frames : List Frame)
    (hinc : TimesInc frames) (hpr : ProbsValid frames)
    (hnn : ∀ f ∈ frames, 0 ≤ f.1) :
    (merge_frames_to_segments frames).Chain' (fun a b => a.1 < b.1)
    ∧ (merge_frames_to_segments frames).Chain' (fun a b => a.2 < b.1)
    ∧ (∀ p ∈ merge_frames_to_segments frames, 1 / 4 ≤ p.2 - p.1)
    ∧ (∀ p ∈ merge_frames_to_segments frames,
        0 ≤ p.1 ∧ p.2 ≤ lastTimestamp frames) := by
  by_cases hE : frames.isEmpty = true
  · simp [merge_frames_to_segments, mergeFrames, hE]
  · rw [merge_frames_to_segments, mergeFrames, if_neg hE]
    obtain ⟨e1, e2⟩ := extractSegments_spec hinc
    obtain ⟨f1, f2, f3⟩ := filterShort_spec (d := 1 / 4) e2
    have wf1 : ∀ p ∈ filterShort (1 / 4) (extractSegments frames), p.1 ≤ p.2 :=
      fun p hp => (e1 p (f2 p hp)).2.1
    have hb1 : ∀ p ∈ filterShort (1 / 4) (extractSegments frames),
        0 ≤ p.1 ∧ p.2 ≤ lastTimestamp frames := by
      intro p hp
      obtain ⟨⟨f, hf, hfe⟩, _, hub⟩ := e1 p (f2 p hp)
      exact ⟨hfe ▸ hnn f hf, hub⟩
    obtain ⟨m1, m2⟩ := mergeClose_spec (t := 1 / 4) f1 wf1 f3 hb1
    have m1b : (mergeClose (1 / 4) (filterShort (1 / 4)
        (extractSegments frames))).Chain' (fun a b : Seg => a.2 < b.1) :=
      m1.imp (fun {a b} h => by linarith)
    obtain ⟨p1, p2⟩ := padSegments_spec 1 (by norm_num) m1b m2
    obtain ⟨o1, o2⟩ := mergeOverlap_spec p1 p2
    refine ⟨?_, o1, fun p hp => (o2 p hp).2.1,
      fun p hp => ⟨(o2 p hp).2.2.1, (o2 p hp).2.2.2⟩⟩
    refine chain'_imp_of_mem ?_ o1
    intro a ha b _ hr
    exact lt_of_le_of_lt (o2 a ha).1 hr

/-- C1 witness: a concrete two-frame input satisfying the hypotheses. -/
theorem claim_C1_segment_invariants_witness :
    (merge_frames_to_segments [(0, 1 / 2, true), (1, 1 / 2, false)]).Chain'
        (fun a b => a.1 < b.1)
    ∧ (merge_frames_to_segments [(0, 1 / 2, true), (1, 1 / 2, false)]).Chain'
        (fun a b => a.2 < b.1)
    ∧ (∀ p ∈ merge_frames_to_segments [(0, 1 / 2, true), (1, 1 / 2, false)],
        1 / 4 ≤ p.2 - p.1)
    ∧ (∀ p ∈ merge_frames_to_segments [(0, 1 / 2, true), (1, 1 / 2, false)],
        0 ≤ p.1 ∧ p.2 ≤ lastTimestamp [(0, 1 / 2, true), (1, 1 / 2, false)]) :=
  claim_C1_segment_invariants [(0, 1 / 2, true), (1, 1 / 2, false)]
    (by norm_num [TimesInc, List.chain'_cons])
    (by norm_num [ProbsValid])
    (by
      intro f hf
      rcases List.mem_cons.mp hf with rfl | hf2
      · norm_num
      · rcases List.mem_cons.mp hf2 with rfl | hf3
        · norm_num
        · exact absurd hf3 (by simp))

/-- C1 counterexample: valid frames whose merge output has two segments
separated by a gap of 1/8 s, below the minimum silence duration of
1/4 s, refuting the gap clause of the claim as stated. -/
theorem claim_C1_counterexample :
    TimesInc [(0, 1, true), (2, 1 / 2, false), (33 / 8, 1, true), (5, 0, false)]
    ∧ ProbsValid [(0, 1, true), (2, 1 / 2, false), (33 / 8, 1, true), (5, 0, false)]
    ∧ merge_frames_to_segments
        [(0, 1, true), (2, 1 / 2, false), (33 / 8, 1, true), (5, 0, false)]
      = [(0, 3), (25 / 8, 5)]
    ∧ ¬ (merge_frames_to_segments
        [(0, 1, true), (2, 1 / 2, false), (33 / 8, 1, true), (5, 0, false)]).Chain'
          (fun a b => (1 : ℚ) / 4 ≤ b.1 - a.2) := by
  have h1 : merge_frames_to_segments
      [(0, 1, true), (2, 1 / 2, false), (33 / 8, 1, true), (5, 0, false)]
      = [(0, 3), (25 / 8, 5)] := by
    norm_num [merge_frames_to_segments, mergeFrames, extractSegments, voiceRegionsAux,
      lastTimestamp, filterShort, mergeClose, mergeCloseAux, padSegments, mergeOverlap,
      mergeOverlapAux]
  refine ⟨?_, ?_, h1, ?_⟩
  · norm_num [TimesInc, List.chain'_cons]
  · norm_num [ProbsValid]
  · rw [h1]
    intro hcontra
    rw [List.chain'_cons] at hcontra
    have := hcontra.1
    norm_num at this

theorem map_eq_self_of {α : Type} (f : α → α) :
    ∀ (l : List α), (∀ p ∈ l, f p = p) → l.map f = l := by
  intro l
  induction l with
  | nil => intro _; rfl
  | cons x t ih =>
    intro h
    rw [List.map_cons, h x (by simp), ih (fun p hp => h p (by simp [hp]))]

theorem padSegments_zero (T : ℚ) (l : List Seg)
    (h : ∀ p ∈ l, 0 ≤ p.1 ∧ p.2 ≤ T) : padSegments 0 T l = l := by
  rw [padSegments]
  refine map_eq_self_of _ l ?_
  intro p hp
  obtain ⟨h1, h2⟩ := h p hp
  rw [sub_zero, add_zero, max_eq_right h1, min_eq_left h2]

theorem mergeCloseAux_id : ∀ (l : List Seg) (t s e : ℚ),
    List.Chain' (fun a b : Seg => t < b.1 - a.2) ((s, e) :: l) →
    mergeCloseAux t s e l = (s, e) :: l := by
  intro l
  induction l with
  | nil => intro t s e _; rfl
  | cons q r2 ih =>
    obtain ⟨s2, e2⟩ := q
    intro t s e hch
    rw [List.chain'_cons] at hch
    rw [mergeCloseAux, if_neg (not_le.mpr (by linarith [hch.1]))]
    rw [ih t s2 e2 hch.2]

theorem mergeClose_id {t : ℚ} : ∀ {l : List Seg},
    l.Chain' (fun a b : Seg => t < b.1 - a.2) → mergeClose t l = l := by
  intro l hch
  cases l with
  | nil => rfl
  | cons q tl =>
    obtain ⟨s, e⟩ := q
    exact mergeCloseAux_id tl t s e hch

theorem mergeOverlapAux_id : ∀ (l : List Seg) (s e : ℚ),
    List.Chain' (fun a b : Seg => a.2 < b.1) ((s, e) :: l) →
    mergeOverlapAux s e l = (s, e) :: l := by
  intro l
  induction l with
  | nil => intro s e _; rfl
  | cons q r2 ih =>
    obtain ⟨s2, e2⟩ := q
    intro s e hch
    rw [List.chain'_cons] at hch
    rw [mergeOverlapAux, if_neg (not_le.mpr hch.1)]
    rw [ih s2 e2 hch.2]

theorem mergeOverlap_id : ∀ {l : List Seg},
    l.Chain' (fun a b : Seg => a.2 < b.1) → mergeOverlap l = l := by
  intro l hch
  cases l with
  | nil => rfl
  | cons q tl =>
    obtain ⟨s, e⟩ := q
    exact mergeOverlapAux_id tl s e hch

theorem voiceRegionsAux_framesOf : ∀ (l : List Seg),
    voiceRegionsAux none (framesOf l) = (l, none) := by
  intro l
  induction l with
  | nil => rfl
  | cons p rest ih =>
    obtain ⟨s, e⟩ := p
    simp [framesOf, voiceRegionsAux, ih]

theorem extractSegments_framesOf (l : List Seg) : extractSegments (framesOf l) = l := by
  rw [extractSegments, voiceRegionsAux_framesOf]

theorem lastTimestamp_cons_cons (x y : Frame) (l : List Frame) :
    lastTimestamp (x :: y :: l) = lastTimestamp (y :: l) := by
  simp [lastTimestamp, List.getLast?_cons_cons]

theorem segsLastEnd_cons_cons (x y : Seg) (l : List Seg) :
    segsLastEnd (x :: y :: l) = segsLastEnd (y :: l) := by
  simp [segsLastEnd, List.getLast?_cons_cons]

theorem lastTimestamp_framesOf : ∀ (l : List Seg),
    lastTimestamp (framesOf l) = segsLastEnd l := by
  intro l
  induction l with
  | nil => rfl
  | cons p rest ih =>
    obtain ⟨s, e⟩ := p
    cases rest with
    | nil => rfl
    | cons q r2 =>
      obtain ⟨qs, qe⟩ := q
      have h1 : framesOf ((s, e) :: (qs, qe) :: r2)
          = (s, 1, true) :: (e, 0, false) :: framesOf ((qs, qe) :: r2) := rfl
      have h2 : framesOf ((qs, qe) :: r2)
          = (qs, 1, true) :: (qe, 0, false) :: framesOf r2 := rfl
      rw [h1, lastTimestamp_cons_cons, h2, lastTimestamp_cons_cons, ← h2, ih,
        segsLastEnd_cons_cons]

theorem ends_le_segsLastEnd : ∀ {l : List Seg},
    l.Chain' SegLt → (∀ p ∈ l, p.1 ≤ p.2) →
    ∀ p ∈ l, p.2 ≤ segsLastEnd l := by
  intro l
  induction l with
  | nil => intro _ _ p hp; exact absurd hp (by simp)
  | cons q rest ih =>
    intro hch hwf p hp
    cases rest with
    | nil =>
      rcases List.mem_cons.mp hp with rfl | h0
      · exact le_of_eq rfl
      · exact absurd h0 (by simp)
    | cons r0 t2 =>
      rw [List.chain'_cons] at hch
      rw [segsLastEnd_cons_cons]
      rcases List.mem_cons.mp hp with rfl | h0
      · have h1 : r0.2 ≤ segsLastEnd (r0 :: t2) :=
          ih hch.2 (fun p2 hp2 => hwf p2 (by simp [hp2])) r0 (by simp)
        have h2 : r0.1 ≤ r0.2 := hwf r0 (by simp)
        exact le_of_lt (lt_of_lt_of_le hch.1.2 (le_trans h2 h1))
      · exact ih hch.2 (fun p2 hp2 => hwf p2 (by simp [hp2])) p h0

/-! ### Claim C6: idempotence of the merge -/

/-- C6 amended: with zero speech padding (speech and silence thresholds
unchanged), the merge is idempotent on valid frames: converting the
output segments back to voice-true frames over exactly those intervals
and re-running the merge returns the same list.  With the positive 1 s
pad of the source the claim fails (see the counterexample): re-running
pads again and merges output gaps that padding left below the silence
threshold. -/
theorem claim_C6_idempotent_no_pad (frames : List Frame)
    (hinc : TimesInc frames) (hnn : ∀ f ∈ frames, 0 ≤ f.1) :
    mergeFrames (1 / 4) (1 / 4) 0 (framesOf (mergeFrames (1 / 4) (1 / 4) 0 frames))
      = mergeFrames (1 / 4) (1 / 4) 0 frames := by
  by_cases hE : frames.isEmpty = true
  · simp [mergeFrames, hE, framesOf]
  · obtain ⟨e1, e2⟩ := extractSegments_spec hinc
    obtain ⟨f1, f2, f3⟩ := filterShort_spec (d := 1 / 4) e2
    have wf1 : ∀ p ∈ filterShort (1 / 4) (extractSegments frames), p.1 ≤ p.2 :=
      fun p hp => (e1 p (f2 p hp)).2.1
    have hb1 : ∀ p ∈ filterShort (1 / 4) (extractSegments frames),
        0 ≤ p.1 ∧ p.2 ≤ lastTimestamp frames := by
      intro p hp
      obtain ⟨⟨f, hf, hfe⟩, _, hub⟩ := e1 p (f2 p hp)
      exact ⟨hfe ▸ hnn f hf, hub⟩
    obtain ⟨m1, m2⟩ := mergeClose_spec (t := 1 / 4) f1 wf1 f3 hb1
    have m1b : (mergeClose (1 / 4) (filterShort (1 / 4)
        (extractSegments frames))).Chain' (fun a b : Seg => a.2 < b.1) :=
      m1.imp (fun {a b} h => by linarith)
    have hS : mergeFrames (1 / 4) (1 / 4) 0 frames
        = mergeClose (1 / 4) (filterShort (1 / 4) (extractSegments frames)) := by
      rw [mergeFrames, if_neg hE,
        padSegments_zero (lastTimestamp frames) _ (fun p hp => ⟨(m2 p hp).2.2.1, (m2 p hp).2.2.2⟩),
        mergeOverlap_id m1b]
    rw [hS]
    set L2 := mergeClose (1 / 4) (filterShort (1 / 4) (extractSegments frames)) with hL2
    have hchS : L2.Chain' SegLt :=
      chain'_imp_of_mem (fun a ha b _ hr => ⟨(m2 a ha).1, hr⟩) m1b
    cases hnil : L2 with
    | nil => simp [framesOf, mergeFrames]
    | cons s0 S2 =>
      have hfne : (framesOf L2).isEmpty = false := by
        rw [hnil]
        obtain ⟨a, b⟩ := s0
        rfl
      rw [← hnil]
      rw [mergeFrames, hfne]
      simp only [Bool.false_eq_true, if_false]
      have hflt : filterShort (1 / 4) L2 = L2 := by
        rw [filterShort]
        exact List.filter_eq_self.mpr (fun p hp => decide_eq_true ((m2 p hp).2.1))
      rw [extractSegments_framesOf, hflt,
        mergeClose_id m1,
        lastTimestamp_framesOf,
        padSegments_zero (segsLastEnd L2) L2
          (fun p hp => ⟨(m2 p hp).2.2.1,
            ends_le_segsLastEnd hchS (fun p2 hp2 => (m2 p2 hp2).1) p hp⟩),
        mergeOverlap_id m1b]

/-- C6 witness: a concrete valid frame list on which the zero-pad merge
is idempotent. -/
theorem claim_C6_idempotent_no_pad_witness :
    mergeFrames (1 / 4) (1 / 4) 0
        (framesOf (mergeFrames (1 / 4) (1 / 4) 0 [(0, 1, true), (1, 0, false)]))
      = mergeFrames (1 / 4) (1 / 4) 0 [(0, 1, true), (1, 0, false)] :=
  claim_C6_idempotent_no_pad [(0, 1, true), (1, 0, false)]
    (by norm_num [TimesInc, List.chain'_cons])
    (by
      intro f hf
      rcases List.mem_cons.mp hf with rfl | hf2
      · norm_num
      · rcases List.mem_cons.mp hf2 with rfl | hf3
        · norm_num
        · exact absurd hf3 (by simp))

/-- C6 counterexample: with the 1 s pad of the source, re-running the
merge on voice-true frames over its own output intervals merges the two
output segments into one, so the merge is not idempotent as claimed. -/
theorem claim_C6_counterexample :
    merge_frames_to_segments [(0, 1, true), (3, 0, false), (41 / 8, 1, true), (6, 0, false)]
      = [(0, 4), (33 / 8, 6)]
    ∧ merge_frames_to_segments (framesOf (merge_frames_to_segments
        [(0, 1, true), (3, 0, false), (41 / 8, 1, true), (6, 0, false)]))
      = [(0, 6)]
    ∧ ([((0 : ℚ), (6 : ℚ))] : List Seg) ≠ [(0, 4), (33 / 8, 6)] := by
  have h1 : merge_frames_to_segments
      [(0, 1, true), (3, 0, false), (41 / 8, 1, true), (6, 0, false)]
      = [(0, 4), (33 / 8, 6)] := by
    norm_num [merge_frames_to_segments, mergeFrames, extractSegments, voiceRegionsAux,
      lastTimestamp, filterShort, mergeClose, mergeCloseAux, padSegments, mergeOverlap,
      mergeOverlapAux]
  refine ⟨h1, ?_, by norm_num⟩
  rw [h1]
  norm_num [merge_frames_to_segments, mergeFrames, framesOf, extractSegments,
    voiceRegionsAux, lastTimestamp, filterShort, mergeClose, mergeCloseAux, padSegments,
    mergeOverlap, mergeOverlapAux]

theorem mergeOverlapAux_length_start : ∀ (l : List Seg) (a b c : ℚ),
    (mergeOverlapAux a c l).length = (mergeOverlapAux b c l).length := by
  intro l
  induction l with
  | nil => intro a b c; rfl
  | cons q rest ih =>
    obtain ⟨s, e⟩ := q
    intro a b c
    by_cases h : s ≤ c
    · rw [mergeOverlapAux, if_pos h, mergeOverlapAux, if_pos h]
      exact ih a b (max e c)
    · rw [mergeOverlapAux, if_neg h, mergeOverlapAux, if_neg h]
      simp

theorem countBoundaries_congr_head (t p T x y e : ℚ) : ∀ (l : List Seg),
    countBoundaries t p T ((x, e) :: l) = countBoundaries t p T ((y, e) :: l) := by
  intro l
  cases l with
  | nil => rfl
  | cons b r => simp [countBoundaries, boundaryKeep]

theorem lenMerge_eq : ∀ (l : List Seg) (t p T cs ce : ℚ),
    List.Chain' SegLt ((cs, ce) :: l) →
    cs ≤ ce →
    (∀ q ∈ l, q.1 ≤ q.2) →
    (mergeOverlap (padSegments p T (mergeCloseAux t cs ce l))).length
      = 1 + countBoundaries t p T ((cs, ce) :: l) := by
  intro l
  induction l with
  | nil =>
    intro t p T cs ce _ _ _
    rfl
  | cons q rest ih =>
    obtain ⟨s, e⟩ := q
    intro t p T cs ce hch hcs hwf
    rw [List.chain'_cons] at hch
    have hces : ce < s := hch.1.2
    have hse : s ≤ e := hwf (s, e) (by simp)
    have hcse : cs ≤ e := le_trans hcs (le_of_lt (lt_of_lt_of_le hces hse))
    by_cases hg : s - ce ≤ t
    · rw [mergeCloseAux, if_pos hg]
      rw [ih t p T cs e (chain'_replace_head hch.2 hcse rfl) hcse
        (fun q2 hq2 => hwf q2 (by simp [hq2]))]
      have hkeep : boundaryKeep t p T (cs, ce) (s, e) = false := by
        simp [boundaryKeep, not_lt.mpr hg]
      rw [countBoundaries_congr_head t p T cs s e rest]
      simp [countBoundaries, hkeep]
    · rw [mergeCloseAux, if_neg hg]
      obtain ⟨e2, tl, heq, hee2⟩ := mergeCloseAux_head rest t s e hch.2
        (fun q2 hq2 => hwf q2 (by simp [hq2]))
      rw [heq]
      have hpad : padSegments p T ((cs, ce) :: (s, e2) :: tl)
          = (max 0 (cs - p), min (ce + p) T) :: (max 0 (s - p), min (e2 + p) T)
            :: padSegments p T tl := rfl
      rw [hpad]
      have hce2 : ce ≤ e2 := le_trans (le_of_lt (lt_of_lt_of_le hces hse)) hee2
      have hx2y2 : min (ce + p) T ≤ min (e2 + p) T :=
        min_le_min (by linarith) (le_refl T)
      have hre : mergeOverlapAux (max 0 (s - p)) (min (e2 + p) T) (padSegments p T tl)
          = mergeOverlap (padSegments p T ((s, e2) :: tl)) := rfl
      by_cases hQ : max 0 (s - p) ≤ min (ce + p) T
      · rw [mergeOverlap, mergeOverlapAux, if_pos hQ, max_eq_left hx2y2,
          mergeOverlapAux_length_start (padSegments p T tl) (max 0 (cs - p))
            (max 0 (s - p)) (min (e2 + p) T), hre, ← heq,
          ih t p T s e hch.2 hse (fun q2 hq2 => hwf q2 (by simp [hq2]))]
        have hkeep : boundaryKeep t p T (cs, ce) (s, e) = false := by
          simp [boundaryKeep, not_lt.mpr hQ]
        simp [countBoundaries, hkeep]
      · rw [mergeOverlap, mergeOverlapAux, if_neg hQ, List.length_cons, hre, ← heq,
          ih t p T s e hch.2 hse (fun q2 hq2 => hwf q2 (by simp [hq2]))]
        have hkeep : boundaryKeep t p T (cs, ce) (s, e) = true := by
          simp only [boundaryKeep, Bool.and_eq_true, decide_eq_true_eq]
          exact ⟨not_le.mp hg, not_le.mp hQ⟩
        simp [countBoundaries, hkeep]
        omega

theorem countBoundaries_mono : ∀ (l : List Seg) (t1 t2 p T : ℚ), t1 ≤ t2 →
    countBoundaries t2 p T l ≤ countBoundaries t1 p T l := by
  intro l
  induction l with
  | nil => intro t1 t2 p T _; exact le_refl 0
  | cons a rest ih =>
    intro t1 t2 p T hle
    cases rest with
    | nil => exact le_refl 0
    | cons b r2 =>
      have hterm : (if boundaryKeep t2 p T a b then 1 else 0)
          ≤ (if boundaryKeep t1 p T a b then 1 else 0) := by
        by_cases h2 : boundaryKeep t2 p T a b = true
        · have h1 : boundaryKeep t1 p T a b = true := by
            simp only [boundaryKeep, Bool.and_eq_true, decide_eq_true_eq] at h2 ⊢
            exact ⟨lt_of_le_of_lt hle h2.1, h2.2⟩
          rw [h2, h1]
        · rw [Bool.not_eq_true] at h2
          rw [h2]
          simp
      calc countBoundaries t2 p T (a :: b :: r2)
          = (if boundaryKeep t2 p T a b then 1 else 0) + countBoundaries t2 p T (b :: r2) := by
            simp [countBoundaries]
        _ ≤ (if boundaryKeep t1 p T a b then 1 else 0) + countBoundaries t1 p T (b :: r2) :=
            Nat.add_le_add hterm (ih t1 t2 p T hle)
        _ = countBoundaries t1 p T (a :: b :: r2) := by simp [countBoundaries]

/-! ### Claim C7: monotonicity in the silence threshold -/

/-- C7 amended: for frames satisfying the VoiceFrame invariant (strictly
increasing timestamps), raising the minimum-silence-duration threshold
never increases the number of output segments (speech threshold and pad
as in the source).  The unrestricted claim over every frame list fails:
with non-monotonic timestamps a larger threshold can produce more
segments, as the counterexample shows. -/
theorem claim_C7_antitone :
    ∀ (frames : List Frame) (t1 t2 : ℚ), TimesInc frames → t1 ≤ t2 →
      (mergeFrames (1 / 4) t2 1 frames).length
        ≤ (mergeFrames (1 / 4) t1 1 frames).length := by
  intro frames t1 t2 hinc hle
  by_cases hE : frames.isEmpty = true
  · simp [mergeFrames, hE]
  · rw [mergeFrames, if_neg hE, mergeFrames, if_neg hE]
    obtain ⟨e1, e2⟩ := extractSegments_spec hinc
    obtain ⟨f1, f2, _⟩ := filterShort_spec (d := 1 / 4) e2
    have wf1 : ∀ p ∈ filterShort (1 / 4) (extractSegments frames), p.1 ≤ p.2 :=
      fun p hp => (e1 p (f2 p hp)).2.1
    cases hL : filterShort (1 / 4) (extractSegments frames) with
    | nil => simp [hL, mergeClose, padSegments, mergeOverlap]
    | cons q tl =>
      obtain ⟨a, b⟩ := q
      rw [hL] at f1 wf1
      have hab : a ≤ b := wf1 (a, b) (by simp)
      have hwtl : ∀ q2 ∈ tl, q2.1 ≤ q2.2 := fun q2 hq2 => wf1 q2 (by simp [hq2])
      rw [mergeClose, mergeClose,
        lenMerge_eq tl t2 1 (lastTimestamp frames) a b f1 hab hwtl,
        lenMerge_eq tl t1 1 (lastTimestamp frames) a b f1 hab hwtl]
      exact Nat.add_le_add_left
        (countBoundaries_mono ((a, b) :: tl) t1 t2 1 (lastTimestamp frames) hle) 1

/-- C7 witness: concrete valid frames and thresholds 1/10 and 1/2. -/
theorem claim_C7_antitone_witness :
    (mergeFrames (1 / 4) (1 / 2) 1 [(0, 1, true), (1, 0, false)]).length
      ≤ (mergeFrames (1 / 4) (1 / 10) 1 [(0, 1, true), (1, 0, false)]).length :=
  claim_C7_antitone [(0, 1, true), (1, 0, false)] (1 / 10) (1 / 2)
    (by norm_num [TimesInc, List.chain'_cons]) (by norm_num)

/-- C7 counterexample: a frame list with non-monotonic timestamps on
which the silence threshold 1/2 yields one output segment but the larger
threshold 1 yields two, refuting the claim as stated for every frame
list. -/
theorem claim_C7_counterexample :
    ((1 : ℚ) / 2) ≤ 1
    ∧ mergeFrames (1 / 4) (1 / 2) 1
        [(0, 1, true), (50, 1, false), (51, 1, true), (52, 1, false), (1, 1, true),
          (2, 1, false), (6, 1, true), (60, 1, false)]
      = [(0, 60)]
    ∧ mergeFrames (1 / 4) 1 1
        [(0, 1, true), (50, 1, false), (51, 1, true), (52, 1, false), (1, 1, true),
          (2, 1, false), (6, 1, true), (60, 1, false)]
      = [(0, 3), (5, 60)]
    ∧ ¬ ((mergeFrames (1 / 4) 1 1
        [(0, 1, true), (50, 1, false), (51, 1, true), (52, 1, false), (1, 1, true),
          (2, 1, false), (6, 1, true), (60, 1, false)]).length
      ≤ (mergeFrames (1 / 4) (1 / 2) 1
        [(0, 1, true), (50, 1, false), (51, 1, true), (52, 1, false), (1, 1, true),
          (2, 1, false), (6, 1, true), (60, 1, false)]).length) := by
  have h1 : mergeFrames (1 / 4) (1 / 2) 1
      [(0, 1, true), (50, 1, false), (51, 1, true), (52, 1, false), (1, 1, true),
        (2, 1, false), (6, 1, true), (60, 1, false)]
      = [(0, 60)] := by
    norm_num [mergeFrames, extractSegments, voiceRegionsAux, lastTimestamp, filterShort,
      mergeClose, mergeCloseAux, padSegments, mergeOverlap, mergeOverlapAux]
  have h2 : mergeFrames (1 / 4) 1 1
      [(0, 1, true), (50, 1, false), (51, 1, true), (52, 1, false), (1, 1, true),
        (2, 1, false), (6, 1, true), (60, 1, false)]
      = [(0, 3), (5, 60)] := by
    norm_num [mergeFrames, extractSegments, voiceRegionsAux, lastTimestamp, filterShort,
      mergeClose, mergeCloseAux, padSegments, mergeOverlap, mergeOverlapAux]
  refine ⟨by norm_num, h1, h2, ?_⟩
  rw [h1, h2]
  simp

/-! ### Claims C2, C3, C4: orchestration -/

/-- C2: for each of the 8 combinations of the three boolean preferences,
`convert_video_to_audio` under an all-success oracle invokes exactly the
expected ordered stage sequence: Extract first, at most one
silence-handling stage, Normalize last when enabled, every stage reading
the output of the previous one, the last enabled stage writing the final
output path. -/
theorem claim_C2_stage_sequences :
    ∀ (inputPath : SPath) (prefs : Prefs),
      (convert_video_to_audio inputPath prefs true allOk).1 = (true, [])
      ∧ (convert_video_to_audio inputPath prefs true allOk).2 = expectedTrace inputPath prefs
      ∧ stagesChained ((convert_video_to_audio inputPath prefs true allOk).2)
      ∧ (((convert_video_to_audio inputPath prefs true allOk).2.head?).map
          (fun inv => inv.1)) = some Stage.extract
      ∧ silenceStageCount ((convert_video_to_audio inputPath prefs true allOk).2) ≤ 1
      ∧ (((convert_video_to_audio inputPath prefs true allOk).2.getLast?).map
          (fun inv => inv.2.2)) = some (get_output_path inputPath) := by
  intro inputPath prefs
  obtain ⟨rs, ml, na, tk⟩ := prefs
  cases rs <;> cases ml <;> cases na <;>
    simp [convert_video_to_audio, expectedTrace, allOk, stagesChained,
      silenceStageCount, List.countP_cons]

/-- C3: when silence removal with the ML segmenter is selected and the
segmenter invocation fails while every other stage succeeds, the job
still succeeds: the built-in silence removal runs on the same input
writing to the same target, right after the failed segmenter step. -/
theorem claim_C3_fallback :
    ∀ (inputPath : SPath) (oracle : Oracle) (na : Bool) (tk : ℤ),
      (∀ a b, oracle .mlSegment a b = false) →
      (∀ s a b, s ≠ Stage.mlSegment → oracle s a b = true) →
      (convert_video_to_audio inputPath ⟨true, true, na, tk⟩ true oracle).1 = (true, [])
      ∧ (convert_video_to_audio inputPath ⟨true, true, na, tk⟩ true oracle).2 =
          fallbackTrace inputPath na := by
  intro inputPath oracle na tk hml hok
  have hex : ∀ a b, oracle .extract a b = true := fun a b => hok _ a b (by decide)
  have hsil : ∀ a b, oracle .silenceRemove a b = true := fun a b => hok _ a b (by decide)
  have hnor : ∀ a b, oracle .normalize a b = true := fun a b => hok _ a b (by decide)
  cases na <;>
    simp [convert_video_to_audio, fallbackTrace, hml, hex, hsil, hnor]

/-- C3 witness: a concrete job with a failing segmenter oracle reaches
success through the fallback trace. -/
theorem claim_C3_fallback_witness :
    (convert_video_to_audio ⟨[], "v.mp4".data⟩ ⟨true, true, false, 1⟩ true
        (fun s _ _ => !(s == Stage.mlSegment))).1 = (true, [])
    ∧ (convert_video_to_audio ⟨[], "v.mp4".data⟩ ⟨true, true, false, 1⟩ true
        (fun s _ _ => !(s == Stage.mlSegment))).2 =
        fallbackTrace ⟨[], "v.mp4".data⟩ false :=
  claim_C3_fallback ⟨[], "v.mp4".data⟩ (fun s _ _ => !(s == Stage.mlSegment)) false 1
    (fun _ _ => rfl) (fun s _ _ h => by cases s <;> simp_all)

/-- C4 counterexample: with the engine unresolvable and two jobs in the
batch, no stage is ever invoked, but both jobs are still processed (the
loop attempts each and records a failure entry for each), so the batch
does not abort with zero jobs processed as the claim states. -/
theorem claim_C4_counterexample :
    (process_files [⟨[], "a.mp4".data⟩, ⟨[], "b.mp4".data⟩] ⟨false, false, false, 1⟩
        false allOk).2 = []
    ∧ (process_files [⟨[], "a.mp4".data⟩, ⟨[], "b.mp4".data⟩] ⟨false, false, false, 1⟩
        false allOk).1 =
        [(⟨[], "a.mp4".data⟩, engineMissingMsg), (⟨[], "b.mp4".data⟩, engineMissingMsg)]
    ∧ (process_files [⟨[], "a.mp4".data⟩, ⟨[], "b.mp4".data⟩] ⟨false, false, false, 1⟩
        false allOk).1 ≠ [] := by
  refine ⟨rfl, rfl, ?_⟩
  decide

/-- C4 amended: when the engine binary cannot be resolved, no stage is
invoked for any job, and instead of aborting the batch, every job is
attempted and fails with the engine resolution error. -/
theorem claim_C4_engine_missing :
    ∀ (files : List SPath) (prefs : Prefs) (oracle : Oracle),
      (process_files files prefs false oracle).2 = []
      ∧ (process_files files prefs false oracle).1.length = files.length
      ∧ ∀ e ∈ (process_files files prefs false oracle).1, e.2 = engineMissingMsg := by
  intro files prefs oracle
  induction files with
  | nil => simp [process_files]
  | cons f rest ih =>
    refine ⟨?_, ?_, ?_⟩
    · simp [process_files, convert_video_to_audio, ih.1]
    · simp [process_files, convert_video_to_audio, ih.2.1]
    · intro e he
      simp only [process_files, convert_video_to_audio] at he
      simp at he
      rcases he with he | he
      · rw [he]
      · exact ih.2.2 e he

/-! ### Claim C5: detection temp-file lifecycle -/

/-- C5 counterexample: the downsample succeeds but the wav decode fails;
detection raises, and the private 16 kHz temp file is left on disk, so
it is not removed in every outcome as the claim states. -/
theorem claim_C5_counterexample :
    (detect_speech_segments_ten_vad ⟨true, false, 16000, true, true, [], true⟩).1.toOption
      = none
    ∧ (detect_speech_segments_ten_vad ⟨true, false, 16000, true, true, [], true⟩).2
      = true := by
  decide

/-- C5 amended: once the downsample step has created the temp file, the
file is gone after detection exactly when detection succeeded and the
best-effort unlink succeeded; any failure after the downsample leaves
the file behind. -/
theorem claim_C5_temp_cleanup :
    ∀ env : VadEnv, env.downsampleOk = true →
      ((detect_speech_segments_ten_vad env).2 = false ↔
        ((detect_speech_segments_ten_vad env).1.toOption.isSome = true
          ∧ env.unlinkOk = true)) := by
  intro env h
  obtain ⟨ds, dec, sr, dt, cl, fr, ul⟩ := env
  cases dec <;> cases dt <;> cases cl <;> cases ul <;>
    by_cases hsr : sr = 16000 <;>
      simp_all [detect_speech_segments_ten_vad, Except.toOption]

/-- C5 witness: a fully successful detection run removes the temp file. -/
theorem claim_C5_temp_cleanup_witness :
    (detect_speech_segments_ten_vad ⟨true, true, 16000, true, true, [], true⟩).2 = false ↔
      ((detect_speech_segments_ten_vad ⟨true, true, 16000, true, true, [], true⟩).1.toOption.isSome
          = true
        ∧ (VadEnv.mk true true 16000 true true [] true).unlinkOk = true) :=
  claim_C5_temp_cleanup ⟨true, true, 16000, true, true, [], true⟩ rfl

/-! ### Claim C8: stderr diagnostics -/

/-- C8 counterexample: for stderr consisting of one line followed by a
newline, the adapter returns the stripped text, not the full captured
text the claim requires for inputs of at most 5 lines. -/
theorem claim_C8_counterexample :
    run_ffmpeg_command 1 ("x\n".data) = (false, "x".data)
    ∧ claimDiagnostic ("x\n".data) = "x\n".data
    ∧ run_ffmpeg_command 1 ("x\n".data) ≠ (false, claimDiagnostic ("x\n".data)) := by
  decide

/-- C8 amended: zero exit code is success with empty diagnostic; a
non-zero exit code fails with the claim diagnostic rule applied to the
stripped stderr (last 5 lines when the stripped text has more than 5
lines, else the whole stripped text); in particular 8 plain lines give
exactly the last 5. -/
theorem claim_C8_diagnostics :
    (∀ (rc : ℤ) (stderr : List Char),
      run_ffmpeg_command rc stderr =
        if rc = 0 then (true, ([] : List Char)) else (false, strippedDiagnostic stderr))
    ∧ run_ffmpeg_command 1 ("1\n2\n3\n4\n5\n6\n7\n8".data)
        = (false, "4\n5\n6\n7\n8".data) := by
  constructor
  · intro rc stderr
    by_cases h : rc = 0 <;>
      simp [run_ffmpeg_command, strippedDiagnostic, claimDiagnostic, h]
  · decide

/-! ### Claim C9: concrete merge scenario -/

/-- C9: the four-frame scenario with minimum speech 0, minimum silence
0.02 s and pad 0 merges into the single segment from the start of the
first voiced run (0) to the end of the last voiced run (0.048), the
0.016 s gap being below the threshold. -/
theorem claim_C9_scenario :
    mergeFrames 0 (1 / 50) 0
        [(0, 9 / 10, true), (2 / 125, 9 / 10, true), (4 / 125, 1 / 10, false),
          (6 / 125, 9 / 10, true)]
      = [(0, 6 / 125)] := by
  norm_num [mergeFrames, extractSegments, voiceRegionsAux, lastTimestamp, filterShort,
    mergeClose, mergeCloseAux, padSegments, mergeOverlap, mergeOverlapAux]

/-! ### Claim C10: temp path construction -/

/-- C10: `get_temp_path` keeps the directory of the base path, appends
`.temp1.m4a` or `.temp2.m4a` to the base stem for temp numbers 1 and 2,
and rejects every other temp number with a `ValueError` (modelled as
`none`). -/
theorem claim_C10_temp_path :
    ∀ (basePath : SPath) (n : ℤ),
      get_temp_path basePath n =
        if n = 1 then some ⟨basePath.dir, pathStem basePath.name ++ (".temp1.m4a".data)⟩
        else if n = 2 then some ⟨basePath.dir, pathStem basePath.name ++ (".temp2.m4a".data)⟩
        else none := by
  intro basePath n
  rfl

end VTA
